import Mathlib

/-!
Verification of the hangman solver (`src/main.rs`): pattern model (`Fragment`,
`Word`), dictionary (`LangDict`), matcher, ranker, and the solve loop's
suggestion scan, embedded shallowly. Strings are modelled as `List Char`;
maps and sets (`HashMap`, `HashSet`) are modelled as association lists /
duplicate-free lists, which fixes one concrete iteration order where the
Rust hash containers leave it arbitrary.
-/

/-- The apostrophe character (codepoint 39). -/
def apos : Char := Char.ofNat 39

/-- Models Rust `char::is_alphanumeric`; faithful on the ASCII plane, which is
the domain exercised throughout this development. -/
def is_alphanumeric (c : Char) : Bool := c.isAlphanum

/-- `const VALID_CHARS: [char; 13]` from `src/main.rs`: the characters allowed
in a puzzle format string. -/
def VALID_CHARS : List Char :=
  ['0', '1', '2', '3', '4', '5', '6', '7', '8', '9', '-', apos, '_']

/-- `enum Fragment` from `src/main.rs`: a letter slot (revealed or blank) or a
fixed punctuation character. -/
inductive Fragment where
  | Letter : Option Char → Fragment
  | Punctuation : Char → Fragment
deriving DecidableEq, Repr

/-- `impl PartialEq<char> for Fragment`: punctuation matches only its own
character, a revealed letter matches only that letter, a blank letter slot
matches any alphanumeric character. -/
def frag_eq_char : Fragment → Char → Bool
  | .Punctuation c, other => other == c
  | .Letter (some letter), other => other == letter
  | .Letter none, other => is_alphanumeric other

/-- A `Word` is a `Vec<Fragment>`; modelled as `List Fragment`. -/
abbrev Word := List Fragment

namespace Word

/-- The positional loop of `impl PartialEq<str> for Word`: compare fragments
with the characters of `s` pairwise (the caller has already checked equal
lengths, so the catch-all `true` cases are never reached with one side
strictly longer). -/
def fragsMatch : List Fragment → List Char → Bool
  | f :: fs, c :: cs => frag_eq_char f c && fragsMatch fs cs
  | _, _ => true

/-- `impl PartialEq<str> for Word` from `src/main.rs`: equal lengths, then a
per-position comparison of each fragment with the corresponding character. -/
def word_eq (w : Word) (s : List Char) : Bool :=
  w.length == s.length && fragsMatch w s

/-- Result of `Word::add_letter`, keeping the (possibly partially updated)
fragment vector next to the Rust `Result`: `ok` for `Ok(())`, `err` for
`Err("can't change a dash or apostrophe")`, `panic` for an out-of-bounds
index (Rust would panic on `self[*pos]`). -/
inductive AddLetterResult where
  | ok : Word → AddLetterResult
  | err : Word → AddLetterResult
  | panic : AddLetterResult
deriving DecidableEq, Repr

/-- `Word::add_letter` from `src/main.rs`: walk the positions in order; at a
`Letter` fragment overwrite it with `Letter(Some(letter))`, at a
`Punctuation` fragment return the error immediately (earlier positions stay
overwritten). -/
def add_letter (w : Word) (letter : Char) : List Nat → AddLetterResult
  | [] => .ok w
  | p :: ps =>
    match w[p]? with
    | some (Fragment.Letter _) =>
        add_letter (w.set p (Fragment.Letter (some letter))) letter ps
    | some (Fragment.Punctuation _) => .err w
    | none => .panic

/-- `Word::from_format_string` from `src/main.rs`: each digit `n` expands to
`n` blank letter fragments, every other character becomes a single
punctuation fragment. (The `assert!(VALID_CHARS.contains(&c))` is a panic
that `Hangman::try_from` has already ruled out by checking `VALID_CHARS`.) -/
def from_format_string (value : List Char) : Word :=
  value.foldl
    (fun res c =>
      if c.isDigit then res ++ List.replicate (c.toNat - 48) (Fragment.Letter none)
      else res ++ [Fragment.Punctuation c])
    []

end Word

/-- `str::split` on a single separator character, for `value.split('_')` in
`Hangman::try_from`: splitting the empty string yields one empty piece. -/
def splitChar (sep : Char) : List Char → List (List Char)
  | [] => [[]]
  | c :: rest =>
    if c = sep then [] :: splitChar sep rest
    else
      match splitChar sep rest with
      | [] => [[c]]
      | g :: gs => (c :: g) :: gs

/-- `impl TryFrom<&str> for Hangman` from `src/main.rs`: reject any character
outside `VALID_CHARS`, then split on `'_'` and parse each piece as a word. -/
def hangman_try_from (value : List Char) : Except Unit (List Word) :=
  if value.all (fun c => VALID_CHARS.contains c) then
    .ok ((splitChar '_' value).map Word.from_format_string)
  else .error ()

/-- `struct LangDict(HashMap<String, HashSet<char>>)` from `src/main.rs`:
modelled as an association list from lowercase word to its list of distinct
characters. -/
abbrev LangDict := List (List Char × List Char)

namespace LangDict

/-- `HashSet::insert`: add `c` only if absent (appended at the end, fixing one
concrete order where the hash set leaves it arbitrary). -/
def insertChar (s : List Char) (c : Char) : List Char :=
  if s.contains c then s else s ++ [c]

/-- The accepted-character test of `LangDict::from_str`:
`char.is_alphanumeric() || "\x27-&,./!".contains(char)`. -/
def validDictChar (c : Char) : Bool :=
  is_alphanumeric c || [apos, '-', '&', ',', '.', '/', '!'].contains c

/-- `str::to_lowercase`, character by character (faithful on ASCII, where the
one-to-many Unicode lowercasings do not arise). -/
def toLowerStr (s : List Char) : List Char := s.map Char.toLower

/-- The inner loop of `LangDict::from_str`: scan the lowercased line, inserting
each accepted character into the set, failing with the first invalid
character (the error `InvalidCharError { char }` carries it). -/
def lineSet (acc : List Char) : List Char → Except Char (List Char)
  | [] => .ok acc
  | c :: rest =>
    if validDictChar c then lineSet (insertChar acc c) rest else .error c

/-- `HashMap::insert`: replace the value at an existing key, else add the new
entry (appended, fixing one concrete order). -/
def dictInsert (d : LangDict) (k v : List Char) : LangDict :=
  if d.any (fun e => e.1 == k) then
    d.map (fun e => if e.1 == k then (k, v) else e)
  else d ++ [(k, v)]

/-- The line loop of `LangDict::from_str`, accumulating the map. -/
def fromStrAux (acc : LangDict) : List (List Char) → Except Char LangDict
  | [] => .ok acc
  | line :: rest =>
    match lineSet [] (toLowerStr line) with
    | .error c => .error c
    | .ok s => fromStrAux (dictInsert acc (toLowerStr line) s) rest

/-- `impl FromStr for LangDict` from `src/main.rs`, taking the input already
split into lines (`s.lines()`): each line becomes one entry keyed by its
lowercase form, valued by its distinct-character set. -/
def from_str (lines : List (List Char)) : Except Char LangDict :=
  fromStrAux [] lines

/-- `LangDict::get_matching` from `src/main.rs`: the subset of entries whose
key equals the pattern word under `Word::word_eq`; `self` is untouched. -/
def get_matching (d : LangDict) (value : Word) : LangDict :=
  d.filter (fun e => Word.word_eq value e.1)

/-- `LangDict::remove_with_letter` from `src/main.rs`:
`self.retain(|k, _| !k.contains(val))`. -/
def remove_with_letter (d : LangDict) (val : Char) : LangDict :=
  d.filter (fun e => !(e.1.contains val))

/-- The multiset of characters across all entry values, which
`LangDict::count_letters` iterates over. -/
def allChars (d : LangDict) : List Char := (d.map Prod.snd).flatten

/-- The aggregate occurrence count `LangDict::count_letters` assigns to `c`
(`or_insert(1)` then `+= 1` per further occurrence). -/
def countLetter (d : LangDict) (c : Char) : Nat := (allChars d).count c

/-- `LangDict::count_letters` from `src/main.rs` as an association list: one
entry per distinct character of the values, with its aggregate count. -/
def count_letters (d : LangDict) : List (Char × Nat) :=
  (allChars d).dedup.map (fun c => (c, countLetter d c))

/-- The comparator of `rank_letters`'s `sort_by(|a, b| b.1.cmp(&a.1))`:
descending by count. -/
def countGE (a b : Char × Nat) : Prop := b.2 ≤ a.2

instance : DecidableRel countGE := fun a b => Nat.decLe b.2 a.2

instance : IsTotal (Char × Nat) countGE := ⟨fun a b => (Nat.le_total a.2 b.2).symm⟩

instance : IsTrans (Char × Nat) countGE := ⟨fun _ _ _ hab hbc => Nat.le_trans hbc hab⟩

/-- `LangDict::rank_letters` from `src/main.rs`: sort the count pairs in
descending count order (a stable sort, modelling Rust's stable `sort_by`)
and keep only the characters. -/
def rank_letters (d : LangDict) : List Char :=
  ((count_letters d).insertionSort countGE).map Prod.fst

end LangDict

/-- The suggestion scan of `main`'s solve loop (`src/main.rs` lines 383-389):
`ranked.pop()` until empty — i.e. traverse `ranked` from last to first —
overwriting `suggestion` with every popped character not in `attempts`, so
the survivor is the first unattempted character in ranked order. -/
def pop_scan (ranked attempts : List Char) : Option Char :=
  ranked.reverse.foldl (fun sugg c => if attempts.contains c then sugg else some c) none

/-- The pattern word parsed from format string `"4"`. -/
def wTest : Word := List.replicate 4 (Fragment.Letter none)

/-- The dictionary loaded from the single line `"test"`. -/
def dTest : LangDict := [(['t', 'e', 's', 't'], ['t', 'e', 's'])]


/-- C10: `add_letter` with an empty position list returns `Ok` and leaves every
fragment of the word unchanged, so the solve loop's unconditional
`add_letter` call after total-miss feedback (empty position list) never
errors and never alters the pattern. -/
theorem add_letter_nil_ok (w : Word) (c : Char) : Word.add_letter w c [] = .ok w := rfl

/-- C3: evaluating `add_letter` at an already-revealed position: re-revealing
with the same letter is an `Ok` no-op, but re-revealing with a different
letter also returns `Ok` and silently overwrites the fragment — the code has
no `ConflictingRevealError` path at all. -/
theorem add_letter_overwrite_eval :
    Word.add_letter [Fragment.Letter (some 'x')] 'x' [0] = .ok [Fragment.Letter (some 'x')] ∧
    Word.add_letter [Fragment.Letter (some 'x')] 'y' [0] = .ok [Fragment.Letter (some 'y')] := by
  decide

/-- C2 counterexample: revealing `'a'` at positions `[0, 1]` of the pattern
`_-` hits the punctuation fragment at position 1 and returns the error, yet
position 0 (listed before it) has already been overwritten — the word is not
left unchanged. -/
theorem add_letter_err_mutates :
    Word.add_letter [Fragment.Letter none, Fragment.Punctuation '-'] 'a' [0, 1] =
      .err [Fragment.Letter (some 'a'), Fragment.Punctuation '-'] ∧
    [Fragment.Letter (some 'a'), Fragment.Punctuation '-'] ≠
      [Fragment.Letter none, Fragment.Punctuation '-'] := by decide

/-- C2 amended: if the position list splits as `ps₁ ++ p :: ps₂` where every
position of `ps₁` holds a `Letter` fragment and `p` holds a `Punctuation`
fragment, then `add_letter` returns the `ImmutablePositionError` and the
word it leaves behind is the original with exactly the positions of `ps₁`
overwritten by `Letter (some c)`; positions from the first punctuation
position on are untouched, so the word is completely unchanged precisely
when no letter position precedes the offending one. -/
theorem add_letter_punct_err (c : Char) :
    ∀ (ps₁ : List Nat) (w : Word) (p : Nat) (ps₂ : List Nat),
      (∀ q ∈ ps₁, ∃ x, w[q]? = some (Fragment.Letter x)) →
      (∃ pc, w[p]? = some (Fragment.Punctuation pc)) →
      Word.add_letter w c (ps₁ ++ p :: ps₂) =
        .err (ps₁.foldl (fun v q => v.set q (Fragment.Letter (some c))) w) := by
  intro ps₁
  induction ps₁ with
  | nil =>
    intro w p ps₂ _ h2
    obtain ⟨pc, hp⟩ := h2
    simp [Word.add_letter, hp]
  | cons q ps₁ ih =>
    intro w p ps₂ h1 h2
    obtain ⟨x, hq⟩ := h1 q (List.mem_cons_self q ps₁)
    obtain ⟨pc, hp⟩ := h2
    have hqlt : q < w.length := by
      by_contra hge
      rw [List.getElem?_eq_none (Nat.le_of_not_lt hge)] at hq
      exact Option.noConfusion hq
    have hpq : q ≠ p := by
      intro h
      rw [h, hp] at hq
      exact Fragment.noConfusion (Option.some.inj hq)
    have h1' : ∀ q' ∈ ps₁,
        ∃ y, (w.set q (Fragment.Letter (some c)))[q']? = some (Fragment.Letter y) := by
      intro q' hmem
      by_cases hqq : q = q'
      · subst hqq
        exact ⟨some c, by rw [List.getElem?_set_self hqlt]⟩
      · obtain ⟨y, hy⟩ := h1 q' (List.mem_cons_of_mem q hmem)
        exact ⟨y, by rw [List.getElem?_set_ne hqq, hy]⟩
    have h2' : ∃ d, (w.set q (Fragment.Letter (some c)))[p]? = some (Fragment.Punctuation d) :=
      ⟨pc, by rw [List.getElem?_set_ne hpq, hp]⟩
    calc Word.add_letter w c ((q :: ps₁) ++ p :: ps₂)
        = Word.add_letter (w.set q (Fragment.Letter (some c))) c (ps₁ ++ p :: ps₂) := by
          simp [Word.add_letter, hq]
      _ = .err (ps₁.foldl (fun v r => v.set r (Fragment.Letter (some c)))
            (w.set q (Fragment.Letter (some c)))) := ih _ p ps₂ h1' h2'
      _ = .err ((q :: ps₁).foldl (fun v r => v.set r (Fragment.Letter (some c))) w) := rfl

/-- Witness for `add_letter_punct_err` at the concrete pattern `_-`, letter
`'a'`, positions `[0, 1]`. -/
theorem add_letter_punct_err_w :
    Word.add_letter [Fragment.Letter none, Fragment.Punctuation '-'] 'a' ([0] ++ 1 :: []) =
      .err ([0].foldl (fun v q => v.set q (Fragment.Letter (some 'a')))
        [Fragment.Letter none, Fragment.Punctuation '-']) :=
  add_letter_punct_err 'a' [0] [Fragment.Letter none, Fragment.Punctuation '-'] 1 []
    (fun q hq => by
      rw [List.mem_singleton] at hq
      subst hq
      exact ⟨none, rfl⟩)
    ⟨'-', rfl⟩

/-- Helper: with equal lengths, `fragsMatch` holds exactly when every
fragment/character pair agrees. -/
theorem fragsMatch_iff :
    ∀ (w : List Fragment) (s : List Char), w.length = s.length →
      (Word.fragsMatch w s = true ↔ ∀ p ∈ w.zip s, frag_eq_char p.1 p.2 = true)
  | [], [], _ => by simp [Word.fragsMatch]
  | [], _ :: _, h => by simp at h
  | _ :: _, [], h => by simp at h
  | f :: fs, c :: cs, h => by
    have h' : fs.length = cs.length := by simpa using h
    simp [Word.fragsMatch, Bool.and_eq_true, fragsMatch_iff fs cs h']

/-- C5: a `Word` never equals a string of a different length; at equal lengths
it equals the string exactly when every position pairs a punctuation
fragment with its own character, a revealed letter with that letter, or a
blank letter slot with an alphanumeric character (`frag_eq_char`). -/
theorem word_eq_spec (w : Word) (s : List Char) :
    (w.length ≠ s.length → Word.word_eq w s = false) ∧
    (w.length = s.length →
      (Word.word_eq w s = true ↔ ∀ p ∈ w.zip s, frag_eq_char p.1 p.2 = true)) := by
  constructor
  · intro h
    unfold Word.word_eq
    simp [h]
  · intro h
    unfold Word.word_eq
    simp only [h, beq_self_eq_true, Bool.true_and]
    exact fragsMatch_iff w s h

/-- Witness for `word_eq_spec`: the blank pattern `_` equals `"a"`, and no
one-fragment pattern equals the two-character string `"ab"`. -/
theorem word_eq_spec_w :
    Word.word_eq [Fragment.Letter none] ['a'] = true ∧
    Word.word_eq [Fragment.Letter none] ['a', 'b'] = false :=
  ⟨((word_eq_spec [Fragment.Letter none] ['a']).2 rfl).mpr (by decide),
   (word_eq_spec [Fragment.Letter none] ['a', 'b']).1 (by decide)⟩

/-- Helper: one step of the solve loop's pop-until-empty scan. -/
theorem pop_scan_cons (a : Char) (l attempts : List Char) :
    pop_scan (a :: l) attempts =
      if attempts.contains a then pop_scan l attempts else some a := by
  unfold pop_scan
  rw [List.reverse_cons, List.foldl_append]
  rfl

/-- C7: the solve loop's pop-until-empty scan selects exactly the first
(highest-ranked) letter of the ranked list that has not been attempted, and
produces no suggestion precisely when every ranked letter was attempted. -/
theorem pop_scan_spec (ranked attempts : List Char) :
    pop_scan ranked attempts = ranked.find? (fun c => !attempts.contains c) ∧
    (pop_scan ranked attempts = none ↔ ∀ c ∈ ranked, attempts.contains c = true) := by
  have key : pop_scan ranked attempts = ranked.find? (fun c => !attempts.contains c) := by
    induction ranked with
    | nil => rfl
    | cons a l ih =>
      rw [pop_scan_cons]
      by_cases h : attempts.contains a
      · rw [if_pos h, ih, List.find?_cons_of_neg]
        simpa using h
      · rw [if_neg h, List.find?_cons_of_pos]
        simpa using h
  refine ⟨key, ?_⟩
  rw [key, List.find?_eq_none]
  constructor
  · intro h c hc
    simpa using h c hc
  · intro h c hc
    simpa using h c hc

/-- Witness for `pop_scan_spec`: with both ranked letters already attempted,
the scan yields no suggestion. -/
theorem pop_scan_spec_w : pop_scan ['a', 'b'] ['a', 'b'] = none :=
  (pop_scan_spec ['a', 'b'] ['a', 'b']).2.mpr (by decide)

/-- C8: `get_matching` keeps exactly the entries whose key matches the pattern
word, values untouched (over the functional model, which by construction
leaves the input dictionary unmutated), and filtering the filtered result by
the same word yields an equal dictionary. -/
theorem get_matching_spec (d : LangDict) (w : Word) :
    (∀ e, e ∈ LangDict.get_matching d w ↔ e ∈ d ∧ Word.word_eq w e.1 = true) ∧
    LangDict.get_matching (LangDict.get_matching d w) w = LangDict.get_matching d w := by
  constructor
  · intro e
    simp [LangDict.get_matching, List.mem_filter]
  · unfold LangDict.get_matching
    rw [List.filter_filter]
    simp

/-- Witness for `get_matching_spec`: the `"test"` entry survives filtering by
the all-blank four-letter pattern. -/
theorem get_matching_spec_w :
    (['t', 'e', 's', 't'], ['t', 'e', 's']) ∈ LangDict.get_matching dTest wTest :=
  ((get_matching_spec dTest wTest).1 _).mpr ⟨by decide, by decide⟩

/-- C9: after `remove_with_letter`, an entry remains exactly when its key does
not contain the guessed letter — every entry containing it is removed and no
other — and a second run with the same letter changes nothing. -/
theorem remove_with_letter_spec (d : LangDict) (c : Char) :
    (∀ e, e ∈ LangDict.remove_with_letter d c ↔ e ∈ d ∧ e.1.contains c = false) ∧
    LangDict.remove_with_letter (LangDict.remove_with_letter d c) c =
      LangDict.remove_with_letter d c := by
  constructor
  · intro e
    simp [LangDict.remove_with_letter, List.mem_filter]
  · unfold LangDict.remove_with_letter
    rw [List.filter_filter]
    simp

/-- Witness for `remove_with_letter_spec`: the `"test"` entry survives removal
of words containing `'x'`. -/
theorem remove_with_letter_spec_w :
    (['t', 'e', 's', 't'], ['t', 'e', 's']) ∈ LangDict.remove_with_letter dTest 'x' :=
  ((remove_with_letter_spec dTest 'x').1 _).mpr ⟨by decide, by decide⟩

/-- Helper: a pair listed by `count_letters` is a distinct character of the
values paired with its aggregate count. -/
theorem mem_count_letters {d : LangDict} {x : Char × Nat} :
    x ∈ LangDict.count_letters d ↔
      x.1 ∈ (LangDict.allChars d).dedup ∧ x.2 = LangDict.countLetter d x.1 := by
  obtain ⟨a, b⟩ := x
  unfold LangDict.count_letters
  rw [List.mem_map]
  constructor
  · rintro ⟨c, hc, hx⟩
    rw [Prod.mk.injEq] at hx
    obtain ⟨rfl, rfl⟩ := hx
    exact ⟨hc, rfl⟩
  · rintro ⟨h1, h2⟩
    refine ⟨a, h1, ?_⟩
    rw [Prod.mk.injEq]
    exact ⟨rfl, h2.symm⟩

/-- C6: every letter returned by `rank_letters` has at least one aggregate
occurrence across the current entries (no zero-count letter appears), and
the letters come in non-increasing order of their aggregate counts. -/
theorem rank_letters_spec (d : LangDict) :
    (∀ c ∈ LangDict.rank_letters d, 1 ≤ LangDict.countLetter d c) ∧
    List.Pairwise (fun a b => LangDict.countLetter d b ≤ LangDict.countLetter d a)
      (LangDict.rank_letters d) := by
  have hmem : ∀ x ∈ (LangDict.count_letters d).insertionSort LangDict.countGE,
      x.1 ∈ (LangDict.allChars d).dedup ∧ x.2 = LangDict.countLetter d x.1 := by
    intro x hx
    exact mem_count_letters.mp ((List.perm_insertionSort LangDict.countGE _).mem_iff.mp hx)
  constructor
  · intro c hc
    obtain ⟨x, hx, rfl⟩ := List.mem_map.mp hc
    obtain ⟨hdedup, _⟩ := hmem x hx
    have hx1 : x.1 ∈ LangDict.allChars d := List.mem_dedup.mp hdedup
    exact List.count_pos_iff.mpr hx1
  · have hs : List.Pairwise LangDict.countGE
        ((LangDict.count_letters d).insertionSort LangDict.countGE) :=
      List.sorted_insertionSort LangDict.countGE (LangDict.count_letters d)
    unfold LangDict.rank_letters
    rw [List.pairwise_map]
    refine hs.imp_of_mem ?_
    intro a b ha hb hab
    rw [← (hmem a ha).2, ← (hmem b hb).2]
    exact hab

/-- Witness for `rank_letters_spec`: `'t'` is ranked for the `{"test"}`
dictionary and indeed occurs at least once. -/
theorem rank_letters_spec_w : 1 ≤ LangDict.countLetter dTest 't' :=
  (rank_letters_spec dTest).1 't' (by decide)

/-- Helper: `lineSet` succeeds exactly when every character of the line passes
`validDictChar`, and a reported error character is an invalid character of
the line. -/
theorem lineSet_ok_iff :
    ∀ (l : List Char) (acc : List Char),
      ((LangDict.lineSet acc l).isOk = true ↔
        ∀ c ∈ l, LangDict.validDictChar c = true) ∧
      (∀ ch, LangDict.lineSet acc l = .error ch →
        ch ∈ l ∧ LangDict.validDictChar ch = false)
  | [], acc => by simp [LangDict.lineSet, Except.isOk, Except.toBool]
  | c :: rest, acc => by
    by_cases h : LangDict.validDictChar c = true
    · have ih := lineSet_ok_iff rest (LangDict.insertChar acc c)
      constructor
      · rw [LangDict.lineSet, if_pos h]
        simp only [List.forall_mem_cons, ih.1, h, true_and]
      · intro ch hch
        rw [LangDict.lineSet, if_pos h] at hch
        obtain ⟨h1, h2⟩ := ih.2 ch hch
        exact ⟨List.mem_cons_of_mem c h1, h2⟩
    · constructor
      · rw [LangDict.lineSet, if_neg h]
        simp only [Except.isOk, Except.toBool, List.forall_mem_cons]
        constructor
        · intro hfalse
          exact Bool.noConfusion hfalse
        · intro ⟨h1, _⟩
          exact absurd h1 h
      · intro ch hch
        rw [LangDict.lineSet, if_neg h] at hch
        obtain rfl := Except.error.inj hch
        exact ⟨List.mem_cons_self c rest, by simpa using h⟩

/-- Helper: the line loop of `from_str` succeeds exactly when every lowercased
line is fully accepted, and a reported error character is an invalid
character of some lowercased line. -/
theorem fromStrAux_ok_iff :
    ∀ (lines : List (List Char)) (acc : LangDict),
      ((LangDict.fromStrAux acc lines).isOk = true ↔
        ∀ l ∈ lines, ∀ c ∈ LangDict.toLowerStr l, LangDict.validDictChar c = true) ∧
      (∀ ch, LangDict.fromStrAux acc lines = .error ch →
        ∃ l ∈ lines, ch ∈ LangDict.toLowerStr l ∧ LangDict.validDictChar ch = false)
  | [], acc => by simp [LangDict.fromStrAux, Except.isOk, Except.toBool]
  | line :: rest, acc => by
    cases hline : LangDict.lineSet [] (LangDict.toLowerStr line) with
    | error c =>
      obtain ⟨hc1, hc2⟩ := (lineSet_ok_iff (LangDict.toLowerStr line) []).2 c hline
      have hred : LangDict.fromStrAux acc (line :: rest) = Except.error c := by
        rw [LangDict.fromStrAux, hline]
      constructor
      · rw [hred]
        simp only [Except.isOk, Except.toBool, List.forall_mem_cons]
        constructor
        · intro hfalse
          exact Bool.noConfusion hfalse
        · intro ⟨h1, _⟩
          exact absurd (h1 c hc1) (by simp [hc2])
      · intro ch hch
        rw [hred] at hch
        obtain rfl := Except.error.inj hch
        exact ⟨line, List.mem_cons_self line rest, hc1, hc2⟩
    | ok s =>
      have hok : ∀ c ∈ LangDict.toLowerStr line, LangDict.validDictChar c = true :=
        (lineSet_ok_iff (LangDict.toLowerStr line) []).1.mp (by rw [hline]; rfl)
      have ih := fromStrAux_ok_iff rest (LangDict.dictInsert acc (LangDict.toLowerStr line) s)
      have hred : LangDict.fromStrAux acc (line :: rest) =
          LangDict.fromStrAux (LangDict.dictInsert acc (LangDict.toLowerStr line) s) rest := by
        rw [LangDict.fromStrAux, hline]
      constructor
      · rw [hred, ih.1, List.forall_mem_cons]
        exact ⟨fun h => ⟨hok, h⟩, fun h => h.2⟩
      · intro ch hch
        rw [hred] at hch
        obtain ⟨l, hl, h1, h2⟩ := ih.2 ch hch
        exact ⟨l, List.mem_cons_of_mem line hl, h1, h2⟩

/-- C4 amended: `LangDict::from_str` fails — carrying an offending character —
exactly when some line, case-folded to lowercase, contains a character
outside the accepted set {alphanumeric, apostrophe, hyphen, ampersand,
comma, period, forward slash, exclamation} (`validDictChar`); every input
whose lowercased lines contain only accepted characters loads successfully,
and a reported error character really is an invalid character of one of the
lines. -/
theorem from_str_ok_iff (lines : List (List Char)) :
    ((LangDict.from_str lines).isOk = true ↔
      ∀ l ∈ lines, ∀ c ∈ LangDict.toLowerStr l, LangDict.validDictChar c = true) ∧
    (∀ ch, LangDict.from_str lines = .error ch →
      ∃ l ∈ lines, ch ∈ LangDict.toLowerStr l ∧ LangDict.validDictChar ch = false) :=
  fromStrAux_ok_iff lines []

/-- Witness for `from_str_ok_iff`: the single line `"test"` is fully accepted
and loads successfully. -/
theorem from_str_ok_iff_w : (LangDict.from_str [['t', 'e', 's', 't']]).isOk = true :=
  (from_str_ok_iff [['t', 'e', 's', 't']]).1.mpr (by decide)

/-- C4 counterexample: a line consisting of the single character `'/'` — not
alphanumeric and not one of the claimed set {apostrophe, hyphen, ampersand,
comma, period, exclamation} — loads successfully instead of failing: the
code's accepted set also contains the forward slash. -/
theorem from_str_accepts_slash :
    LangDict.from_str [['/']] = .ok [(['/'], ['/'])] ∧
    is_alphanumeric '/' = false ∧
    List.contains [apos, '-', '&', ',', '.', '!'] '/' = false :=
  ⟨rfl, rfl, rfl⟩

/-- C1 amended: for format string `"4"` and the dictionary loaded from the one
line `"test"`: the pattern is four blank letter slots, the initial filtered
candidate subset is exactly the `"test"` entry, and the ranked letter list
is `['t', 'e', 's']` (all counts tie, so `'t'` comes first only under the
model's fixed tie order) with `'t'` carrying an aggregate count of 1 — the
dictionary stores each word's distinct-character set, so a letter occurring
twice in one word still contributes only 1. -/
theorem scenario1_eval :
    hangman_try_from ['4'] = .ok [wTest] ∧
    LangDict.from_str [['t', 'e', 's', 't']] = .ok dTest ∧
    LangDict.get_matching dTest wTest = dTest ∧
    LangDict.rank_letters dTest = ['t', 'e', 's'] ∧
    LangDict.countLetter dTest 't' = 1 :=
  ⟨rfl, rfl, by decide, by decide, by decide⟩

/-- C1 counterexample: `count_letters` for the `{"test"}` dictionary assigns
`'t'` the aggregate count 1, not 2 — the stored value for `"test"` is its
distinct-character set, so the doubled `t` contributes only once. -/
theorem scenario1_count_t :
    LangDict.count_letters dTest = [('t', 1), ('e', 1), ('s', 1)] ∧
    LangDict.countLetter dTest 't' = 1 ∧ LangDict.countLetter dTest 't' ≠ 2 := by
  refine ⟨by decide, by decide, by decide⟩
